import Mathlib

/-!
Shallow embedding of `src/main.rs` of the weekly-uptime-status-report
generator, together with proofs about the properties its specification
states.  Strings are modelled as `List Char`; Rust's machine integers are
modelled as `Int`/`Nat` with explicit wrap-around (`% 2^32`) where i32
overflow matters; fallible operations return `Option`.
-/

/-- Rust `str::split(sep)` for a one-character separator: every occurrence
splits, empty pieces are kept, and the empty string yields `[[]]`. -/
def splitOnChar (sep : Char) : List Char → List (List Char)
  | [] => [[]]
  | c :: rest =>
    match splitOnChar sep rest with
    | [] => [[]]
    | h :: t => if c = sep then [] :: h :: t else (c :: h) :: t

/-- Rust `str::trim` (start of string): drop leading whitespace. -/
def dropWs (l : List Char) : List Char := l.dropWhile (fun c => c.isWhitespace)

/-- Rust `str::trim`: drop leading and trailing whitespace. -/
def trimWs (l : List Char) : List Char := (dropWs (dropWs l).reverse).reverse

/-- Rust `str::contains(&str)` substring test. -/
def containsSub (hay pat : List Char) : Bool :=
  hay.tails.any (fun t => pat.isPrefixOf t)

/-- Worker for `removeAll`, structurally recursive on a fuel that starts at
the list length (each step consumes at least one character, so the fuel
never runs out before the list does). -/
def removeAllGo (p : Char) (ps : List Char) : Nat → List Char → List Char
  | _, [] => []
  | 0, l => l
  | fuel + 1, c :: rest =>
    if (p :: ps).isPrefixOf (c :: rest) then removeAllGo p ps fuel (rest.drop ps.length)
    else c :: removeAllGo p ps fuel rest

/-- Rust `str::replace(pat, "")` for a non-empty pattern: delete every
(non-overlapping, left-to-right) occurrence of `p :: ps`. -/
def removeAll (p : Char) (ps : List Char) (l : List Char) : List Char :=
  removeAllGo p ps l.length l

/-- Rust `str::to_lowercase`, restricted to the ASCII range that all inputs
under consideration use (`Char.toLower` lowercases exactly `A`–`Z`). -/
def lowerList (l : List Char) : List Char := l.map Char.toLower

/-- Digit-string value accumulator, as Rust's integer `FromStr` does. -/
def digitsVal (l : List Char) : Nat :=
  l.foldl (fun acc c => acc * 10 + (c.toNat - 48)) 0

/-- The all-digits check used by Rust's integer `FromStr` after the sign. -/
def allDigits (l : List Char) : Bool := !l.isEmpty && l.all (fun c => c.isDigit)

/-- Rust `str::parse::<u32>()`: an optional leading `+`, then one or more
ASCII digits, value below `2^32`; anything else is an error (`none`). -/
def parseU32 (l : List Char) : Option Nat :=
  let l' := match l with
    | '+' :: r => r
    | _ => l
  if allDigits l' then
    if digitsVal l' < 2 ^ 32 then some (digitsVal l') else none
  else none

/-- Rust `str::parse::<i32>()`: an optional sign, then one or more ASCII
digits, value within the i32 range; anything else is an error (`none`). -/
def parseI32 (l : List Char) : Option Int :=
  match l with
  | '+' :: r =>
      if allDigits r then
        if digitsVal r ≤ 2 ^ 31 - 1 then some (digitsVal r : Int) else none
      else none
  | '-' :: r =>
      if allDigits r then
        if digitsVal r ≤ 2 ^ 31 then some (-(digitsVal r : Int)) else none
      else none
  | _ =>
      if allDigits l then
        if digitsVal l ≤ 2 ^ 31 - 1 then some (digitsVal l : Int) else none
      else none

/-- i32 wrap-around semantics (release-mode Rust arithmetic). -/
def wrap32 (x : Int) : Int := (x + 2 ^ 31) % 2 ^ 32 - 2 ^ 31

/-- A calendar date, as chrono's `NaiveDate` (year, month 1–12, day). -/
structure Date where
  year : Int
  month : Nat
  day : Nat
deriving DecidableEq

/-- Proleptic-Gregorian leap-year test, as chrono uses. -/
def isLeapYear (y : Int) : Bool := y % 4 = 0 && (y % 100 ≠ 0 || y % 400 = 0)

def daysInMonth (y : Int) (m : Nat) : Nat :=
  if m = 1 then 31 else
  if m = 2 then (if isLeapYear y then 29 else 28) else
  if m = 3 then 31 else
  if m = 4 then 30 else
  if m = 5 then 31 else
  if m = 6 then 30 else
  if m = 7 then 31 else
  if m = 8 then 31 else
  if m = 9 then 30 else
  if m = 10 then 31 else
  if m = 11 then 30 else
  if m = 12 then 31 else 0

/-- chrono `NaiveDate::from_ymd_opt`: `some` exactly on valid calendar dates
within chrono's representable year range. -/
def from_ymd_opt (y : Int) (m d : Nat) : Option Date :=
  if 1 ≤ m ∧ m ≤ 12 ∧ 1 ≤ d ∧ d ≤ daysInMonth y m ∧ -262144 ≤ y ∧ y ≤ 262143 then
    some ⟨y, m, d⟩
  else none

def monthOf (s : List Char) : Option Nat :=
  if s = "Jan".data then some 1 else
  if s = "Feb".data then some 2 else
  if s = "Mar".data then some 3 else
  if s = "Apr".data then some 4 else
  if s = "May".data then some 5 else
  if s = "Jun".data then some 6 else
  if s = "Jul".data then some 7 else
  if s = "Aug".data then some 8 else
  if s = "Sep".data then some 9 else
  if s = "Oct".data then some 10 else
  if s = "Nov".data then some 11 else
  if s = "Dec".data then some 12 else none

/-- `parse_date` (main.rs:41-68): split on `/`, require exactly three parts,
parse day as u32 and year as i32 (year becomes `2000 + y`, with i32
wrap-around), map the month token, and validate through `from_ymd_opt`. -/
def parse_date (s : List Char) : Option Date :=
  match splitOnChar '/' s with
  | [p0, p1, p2] =>
    match parseU32 p0 with
    | none => none
    | some day =>
      match parseI32 p2 with
      | none => none
      | some y =>
        match monthOf p1 with
        | none => none
        | some m => from_ymd_opt (wrap32 (2000 + y)) m day
  | _ => none

/-- Weekday of a day number (days since 1970-01-01, which was a Thursday);
0 = Sunday … 6 = Saturday.  This is chrono's weekday composed with the
`match` table of main.rs:72-80 (`num_days_from_sunday`). -/
def days_since_sunday (t : Int) : Int := (t + 4) % 7

/-- `get_previous_week_range` (main.rs:70-87), with "today" (which the code
reads from the local clock) made an explicit parameter, as a day number. -/
def get_previous_week_range (today : Int) : Int × Int :=
  let dss := days_since_sunday today
  let last_sunday := today - dss
  let previous_sunday := last_sunday - 7
  let previous_saturday := previous_sunday + 6
  (previous_sunday, previous_saturday)

/-- The per-segment test of `extract_jira_key` (main.rs:94-101): contains a
hyphen, splits on `-` into exactly two parts, all chars of the first are
uppercase ASCII and all chars of the second are ASCII digits (`all` is
vacuously true on an empty part, exactly as Rust's `Iterator::all`). -/
def jiraSegMatches (part : List Char) : Bool :=
  part.contains '-' &&
    match splitOnChar '-' part with
    | [a, b] => a.all (fun c => c.isUpper) && b.all (fun c => c.isDigit)
    | _ => false

/-- `extract_jira_key` (main.rs:89-105): first `/`-segment passing
`jiraSegMatches`, in left-to-right order. -/
def extract_jira_key (url : List Char) : Option (List Char) :=
  (splitOnChar '/' url).find? jiraSegMatches

/-- One attempt at `\d{1,2}:\d{2}` with a one-digit hour `d1`. -/
def matchClock1 (d1 : Char) (rest : List Char) : Option (List Char × List Char) :=
  match rest with
  | x :: m1 :: m2 :: rest2 =>
    if x = ':' && m1.isDigit && m2.isDigit then some ([d1, x, m1, m2], rest2) else none
  | _ => none

/-- Anchored match of the regex fragment `\d{1,2}:\d{2}` at the head of the
list (greedy two-digit hour first, then the one-digit backtrack, exactly as
the backtracking of `(\d{1,2})`); returns the matched text and the rest. -/
def matchClock : List Char → Option (List Char × List Char)
  | [] => none
  | d1 :: rest =>
    if d1.isDigit then
      match rest with
      | d2 :: y :: m1 :: m2 :: rest3 =>
        if d2.isDigit && y = ':' && m1.isDigit && m2.isDigit then
          some ([d1, d2, y, m1, m2], rest3)
        else matchClock1 d1 rest
      | _ => matchClock1 d1 rest
    else none

/-- Greedy `\s*`: drop leading whitespace (the characters that follow are
never whitespace in the pattern, so greediness is deterministic). -/
def skipWs : List Char → List Char
  | [] => []
  | c :: rest => if c.isWhitespace then skipWs rest else c :: rest

/-- The separator class `[-â€“]` of main.rs:240, read as the four literal
characters of the source text: `-`, `â`, `€`, `“` (the latter three are the
mojibake rendering of an en dash; the en dash itself is not in the class). -/
def sepChars : List Char := ['-', 'â', '€', '“']

/-- Anchored attempt of the whole pattern
`(\d{1,2}:\d{2})\s*[-â€“]\s*(\d{1,2}:\d{2})` at the head of the list,
returning the two capture groups. -/
def matchRangeAt (l : List Char) : Option (List Char × List Char) :=
  match matchClock l with
  | none => none
  | some (t1, rest1) =>
    match skipWs rest1 with
    | [] => none
    | s :: rest3 =>
      if sepChars.contains s then
        match matchClock (skipWs rest3) with
        | some (t2, _) => some (t1, t2)
        | none => none
      else none

/-- Leftmost match of the time-range pattern: try every start position from
the left, as the regex engine does. -/
def findTimeRange : List Char → Option (List Char × List Char)
  | [] => none
  | c :: rest =>
    match matchRangeAt (c :: rest) with
    | some p => some p
    | none => findTimeRange rest

/-- `extract_time_from_description` (main.rs:237-250): only when the text
contains both an ASCII `-` and a `:` is the regex consulted; its two capture
groups are returned, else `(none, none)`. -/
def extract_time_from_description (description : List Char) :
    Option (List Char) × Option (List Char) :=
  if description.contains '-' && description.contains ':' then
    match findTimeRange description with
    | some (t1, t2) => (some t1, some t2)
    | none => (none, none)
  else (none, none)

/-- Anchored match of `(\d+)h(\d+)m`: maximal digit run, `h`, maximal digit
run, `m` (digit runs cannot backtrack usefully before a non-digit letter). -/
def matchHMAt (l : List Char) : Option (List Char × List Char) :=
  let d1 := l.takeWhile (fun c => c.isDigit)
  if d1.isEmpty then none
  else
    match l.drop d1.length with
    | 'h' :: rest =>
      let d2 := rest.takeWhile (fun c => c.isDigit)
      if d2.isEmpty then none
      else
        match rest.drop d2.length with
        | 'm' :: _ => some (d1, d2)
        | _ => none
    | _ => none

/-- Leftmost match of `(\d+)h(\d+)m`, returning its two capture groups. -/
def findHM : List Char → Option (List Char × List Char)
  | [] => none
  | c :: rest =>
    match matchHMAt (c :: rest) with
    | some p => some p
    | none => findHM rest

/-- Rust `Regex::captures` for `(\d+)h(\d+)m`: the outer `Option` is the
whole-match success, the inner `Option`s are the groups (`get(1)`/`get(2)`). -/
def capturesHM (l : List Char) : Option (Option (List Char) × Option (List Char)) :=
  (findHM l).map (fun p => (some p.1, some p.2))

/-- Leftmost match of `(\d+)`: first maximal digit run. -/
def findNum : List Char → Option (List Char)
  | [] => none
  | c :: rest =>
    if c.isDigit then some ((c :: rest).takeWhile (fun ch => ch.isDigit))
    else findNum rest

/-- Rust `Regex::captures` for `(\d+)`: group 1 as an inner `Option`. -/
def capturesNum (l : List Char) : Option (Option (List Char)) :=
  (findNum l).map (fun d => some d)

/-- `parse::<i32>().unwrap_or(d)`. -/
def parseI32or (d : Int) (l : List Char) : Int :=
  match parseI32 l with
  | some v => v
  | none => d

/-- The tail of `parse_duration_to_minutes` after the `+`-branch
(main.rs:296-314): the `h`/`m` regex branch, then the bare-number branch,
then the default of 5. -/
def pdm_rest (s : List Char) : Int :=
  if s.contains 'h' && s.contains 'm' then
    match findHM s with
    | some (d1, d2) => wrap32 (parseI32or 0 d1 * 60 + parseI32or 0 d2)
    | none =>
      match findNum s with
      | some d => parseI32or 5 d
      | none => 5
  else
    match findNum s with
    | some d => parseI32or 5 d
    | none => 5

/-- `parse_duration_to_minutes` (main.rs:282-315): lowercase the input; if it
contains `+` and splits on `+` into exactly two parts, hours×60 + minutes
(each `parse::<i32>().unwrap_or(0)`, the minutes part after deleting every
occurrence of `minutes` then `min` and trimming); otherwise fall through to
the `h`/`m` and bare-number branches. -/
def parse_duration_to_minutes (s0 : List Char) : Int :=
  let s := lowerList s0
  if s.contains '+' then
    match splitOnChar '+' s with
    | [a, b] =>
      wrap32 (parseI32or 0 a * 60 +
        parseI32or 0 (trimWs (removeAll 'm' "in".data (removeAll 'm' "inutes".data b))))
    | _ => pdm_rest s
  else pdm_rest s

/-- The `h`/`m` branch of `parse_duration_to_minutes` with each
`captures.get(i).unwrap()` modelled as a fallible `Option.bind`, so that a
missing capture group would surface as `none` (a panic in the Rust code). -/
def pdm_rest_checked (s : List Char) : Option Int :=
  if s.contains 'h' && s.contains 'm' then
    match capturesHM s with
    | some caps =>
      match caps.1, caps.2 with
      | some d1, some d2 => some (wrap32 (parseI32or 0 d1 * 60 + parseI32or 0 d2))
      | _, _ => none
    | none =>
      match capturesNum s with
      | some caps =>
        match caps with
        | some d => some (parseI32or 5 d)
        | none => none
      | none => some 5
  else
    match capturesNum s with
    | some caps =>
      match caps with
      | some d => some (parseI32or 5 d)
      | none => none
    | none => some 5

/-- `parse_duration_to_minutes` with every `unwrap` on a capture group made
fallible; `none` would mean a panic. -/
def parse_duration_to_minutes_checked (s0 : List Char) : Option Int :=
  let s := lowerList s0
  if s.contains '+' then
    match splitOnChar '+' s with
    | [a, b] =>
      some (wrap32 (parseI32or 0 a * 60 +
        parseI32or 0 (trimWs (removeAll 'm' "in".data (removeAll 'm' "inutes".data b)))))
    | _ => pdm_rest_checked s
  else pdm_rest_checked s

/-- `%H:%M` rendering of a time-of-day taken from a minute count (chrono
normalises the datetime; the printed clock time is the Euclidean remainder
by 24×60 minutes, zero-padded to two digits each). -/
def fmtHM (m : Int) : List Char :=
  let t := (m % 1440).toNat
  [Nat.digitChar (t / 60 / 10), Nat.digitChar (t / 60 % 10), ':',
   Nat.digitChar (t % 60 / 10), Nat.digitChar (t % 60 % 10)]

/-- `calculate_incident_times` (main.rs:252-280): description-derived times
win; otherwise a fixed start-time policy on weekday and parsed duration, and
the end is start plus the duration, both rendered `%H:%M`. -/
def calculate_incident_times (date : Int) (duration_str jira_description : List Char) :
    List Char × List Char :=
  match extract_time_from_description jira_description with
  | (some s, some e) => (s, e)
  | _ =>
    let duration_minutes := parse_duration_to_minutes duration_str
    let default_start : Int :=
      if days_since_sunday date = 6 ∨ days_since_sunday date = 0 then 14 * 60
      else if 0 ≤ duration_minutes ∧ duration_minutes ≤ 30 then 10 * 60 + 30
      else if 31 ≤ duration_minutes ∧ duration_minutes ≤ 120 then 13 * 60
      else 9 * 60
    (fmtHM default_start, fmtHM (default_start + duration_minutes))

/-- `format_description` (main.rs:184-205): push `cause`, a period if it did
not end with one; then, if `solution` is non-empty, a space when something
was already pushed, `solution`, and a period if it did not end with one. -/
def format_description (cause solution : List Char) : List Char :=
  let description : List Char :=
    if !cause.isEmpty then
      cause ++ (if cause.getLast? = some '.' then [] else ['.'])
    else []
  if !solution.isEmpty then
    (description ++ (if !description.isEmpty then [' '] else [])) ++
      solution ++ (if solution.getLast? = some '.' then [] else ['.'])
  else description

/-- Rust `str::lines`: split on `\n`, drop the final empty piece produced by
a trailing newline, strip a trailing `\r` from each line; empty input has no
lines. -/
def rlines (l : List Char) : List (List Char) :=
  match l with
  | [] => []
  | _ =>
    let parts := splitOnChar '\n' l
    let parts := if parts.getLast? = some [] then parts.dropLast else parts
    parts.map (fun p => if p.getLast? = some '\r' then p.dropLast else p)

/-- The fallback-keyword test of main.rs:361-363 on an (already trimmed)
line: its lowercasing contains `root cause`, `caused by` or `due to`. -/
def rcaFallbackLine (line : List Char) : Bool :=
  containsSub (lowerList line) "root cause".data ||
  containsSub (lowerList line) "caused by".data ||
  containsSub (lowerList line) "due to".data

/-- `extract_rca_and_preventative_measures` (main.rs:317-379).  Both section
regexes (main.rs:322 and main.rs:339) contain the look-ahead `(?=…)`, which
the `regex` engine rejects, so both `Regex::new` calls return `Err` and the
two `if let Ok` blocks never run: `extracted_content` is always empty at
main.rs:356 and only the fallback line scan contributes.  That scan trims
each line, takes the first whose lowercasing contains one of the keywords,
and the final `join("\n")` of at most one piece is that piece or empty. -/
def extract_rca_and_preventative_measures (description : List Char) : List Char :=
  match ((rlines description).map trimWs).find? rcaFallbackLine with
  | some line => line
  | none => []

/-- One row of the outage log (the `OutageRecord` struct of main.rs:12-28). -/
structure OutageRecord where
  date : List Char
  ticket : List Char
  service : List Char
  duration : List Char
  cause : List Char
  solution : List Char
  severity : List Char
deriving DecidableEq

/-- chrono's `NaiveDate` ordering (chronological; on valid dates this is the
lexicographic year–month–day order). -/
def dateLe (a b : Date) : Bool :=
  decide (a.year < b.year ∨ (a.year = b.year ∧
    (a.month < b.month ∨ (a.month = b.month ∧ a.day ≤ b.day))))

/-- Rust's `Option<NaiveDate>` ordering used by the `sort_by` comparator of
main.rs:571-575: `None` sorts before any `Some`. -/
def optDateLe (x y : Option Date) : Bool :=
  match x, y with
  | none, _ => true
  | some _, none => false
  | some a, some b => dateLe a b

/-- The sort key comparator of main.rs:571-575. -/
def recordLe (a b : OutageRecord) : Bool :=
  optDateLe (parse_date a.date) (parse_date b.date)

/-- The ingestion loop of `main` (main.rs:555-575): each row is either a
structural parse failure (`none`, skipped with a warning) or a record; a
record is retained when its date parses and lies in the inclusive week
range; retained records are then stably sorted by parsed date. -/
def ingest (ws we : Date) (rows : List (Option OutageRecord)) : List OutageRecord :=
  (rows.filterMap (fun r => r.bind (fun rec =>
    match parse_date rec.date with
    | some d => if dateLe ws d && dateLe d we then some rec else none
    | none => none))).mergeSort recordLe

/-- The spec's segment matcher for issue keys, following the claim's words:
splitting on `-` yields exactly two parts, the first NON-EMPTY and all
uppercase ASCII, the second NON-EMPTY and all ASCII digits. -/
def claimJiraSegMatches (part : List Char) : Bool :=
  match splitOnChar '-' part with
  | [a, b] =>
    !a.isEmpty && a.all (fun c => c.isUpper) && !b.isEmpty && b.all (fun c => c.isDigit)
  | _ => false

/-- The claim's reading of the `+`-branch minutes part: strip a TRAILING
`minutes` or `min` (only at the end), then surrounding whitespace. -/
def claimMinutesPart (l : List Char) : List Char :=
  if "minutes".data.isSuffixOf l then trimWs (l.take (l.length - 7))
  else if "min".data.isSuffixOf l then trimWs (l.take (l.length - 3))
  else trimWs l

/-- The spec's "forced to end with a period if non-empty and not already so
terminated" operation on one clause of the description. -/
def withFinalPeriod (l : List Char) : List Char :=
  if l = [] then [] else if l.getLast? = some '.' then l else l ++ ['.']

/-- The shape of a `\d{1,2}:\d{2}` time as matched by the time-range
pattern: one or two digits, a colon, two digits. -/
def ClockShape (t : List Char) : Prop :=
  (∃ a b c, t = [a, ':', b, c] ∧
    a.isDigit = true ∧ b.isDigit = true ∧ c.isDigit = true) ∨
  (∃ a a2 b c, t = [a, a2, ':', b, c] ∧
    a.isDigit = true ∧ a2.isDigit = true ∧ b.isDigit = true ∧ c.isDigit = true)

/-- A concrete outage row used to instantiate the ingestion theorem. -/
def sampleRecord : OutageRecord :=
  ⟨"05/Mar/24".data, [], [], [], [], [], []⟩

/-! ## Theorems -/

theorem splitOnChar_ne_nil (sep : Char) (l : List Char) : splitOnChar sep l ≠ [] := by
  cases l with
  | nil => simp [splitOnChar]
  | cons c rest =>
    simp only [splitOnChar]
    rcases splitOnChar sep rest with _ | ⟨h', t⟩
    · simp
    · dsimp only
      split <;> simp

theorem splitOnChar_not_mem {sep : Char} {l : List Char} (h : sep ∉ l) :
    splitOnChar sep l = [l] := by
  induction l with
  | nil => rfl
  | cons c rest ih =>
    simp only [List.mem_cons, not_or] at h
    have hc : ¬c = sep := fun hcs => h.1 hcs.symm
    simp [splitOnChar, ih h.2, hc]

theorem splitOnChar_append {sep : Char} {l₁ : List Char} (l₂ : List Char)
    (h : sep ∉ l₁) : splitOnChar sep (l₁ ++ sep :: l₂) = l₁ :: splitOnChar sep l₂ := by
  induction l₁ with
  | nil =>
    simp only [List.nil_append, splitOnChar]
    rcases h2 : splitOnChar sep l₂ with _ | ⟨h', t⟩
    · exact absurd h2 (splitOnChar_ne_nil sep l₂)
    · simp
  | cons c rest ih =>
    simp only [List.mem_cons, not_or] at h
    have hc : ¬c = sep := fun hcs => h.1 hcs.symm
    rw [List.cons_append]
    simp only [splitOnChar, ih h.2, hc, if_false]

/-- C1, counterexample: day 3 (= 1970-01-04) is a Sunday, and on it
`get_previous_week_range` returns `(today - 7, today - 1)` — the week ending
ONE day before today, not eight days before as the claim states. -/
theorem get_previous_week_range_sunday_cex :
    days_since_sunday 3 = 0 ∧
    get_previous_week_range 3 = (-4, 2) ∧
    ¬(3 - (get_previous_week_range 3).2 = 8) := by
  refine ⟨by decide, by decide, by decide⟩

/-- C1 (amended): for every Sunday "today" the function returns the
Sunday-to-Saturday range `(today - 7, today - 1)`, whose end is ONE day
before today (the most recently completed week); for every Wednesday
"today" the range is exactly 6 days wide, starts on a Sunday, and ends
between 3 and 9 days before today. -/
theorem get_previous_week_range_spec (t : Int) :
    (days_since_sunday t = 0 →
      get_previous_week_range t = (t - 7, t - 1) ∧
      days_since_sunday (t - 7) = 0 ∧ days_since_sunday (t - 1) = 6) ∧
    (days_since_sunday t = 3 →
      (get_previous_week_range t).2 - (get_previous_week_range t).1 = 6 ∧
      days_since_sunday (get_previous_week_range t).1 = 0 ∧
      3 ≤ t - (get_previous_week_range t).2 ∧ t - (get_previous_week_range t).2 ≤ 9) := by
  simp only [get_previous_week_range, days_since_sunday, Prod.mk.injEq]
  omega

/-- C1 witness: the amended statement at the concrete Sunday 3 and the
concrete Wednesday 6. -/
theorem get_previous_week_range_spec_w :
    get_previous_week_range 3 = (3 - 7, 3 - 1) ∧
    (get_previous_week_range 6).2 - (get_previous_week_range 6).1 = 6 ∧
    days_since_sunday (get_previous_week_range 6).1 = 0 := by
  refine ⟨((get_previous_week_range_spec 3).1 (by decide)).1,
    ((get_previous_week_range_spec 6).2 (by decide)).1,
    ((get_previous_week_range_spec 6).2 (by decide)).2.1⟩

/-- C2, counterexample: on `"-123"` no segment satisfies the claim's
matcher (its letters part is empty), so the claim says no key is produced;
the code nevertheless returns `"-123"`, because `Iterator::all` is vacuously
true on the empty letters part. -/
theorem extract_jira_key_empty_prefix_cex :
    ((splitOnChar '/' "-123".data).all (fun seg => !claimJiraSegMatches seg)) = true ∧
    extract_jira_key "-123".data = some "-123".data := by
  refine ⟨by decide, by decide⟩

/-- C2 (amended): `extract_jira_key` returns the first `/`-segment whose
`-`-split has exactly two parts with every character of the first uppercase
ASCII and every character of the second an ASCII digit — either part may be
EMPTY (the non-emptiness the claim asserts is not checked); the claim's own
worked examples behave as stated. -/
theorem extract_jira_key_spec :
    (∀ url : List Char,
      extract_jira_key url = (splitOnChar '/' url).find? (fun part =>
        match splitOnChar '-' part with
        | [a, b] => a.all (fun c => c.isUpper) && b.all (fun c => c.isDigit)
        | _ => false)) ∧
    extract_jira_key "https://host/browse/OPS-12345".data = some "OPS-12345".data ∧
    extract_jira_key "https://host/browse/opsportal-build".data = none ∧
    extract_jira_key "https://host/browse/AB-12-34".data = none := by
  refine ⟨?_, by decide, by decide, by decide⟩
  intro url
  unfold extract_jira_key
  congr 1
  funext part
  unfold jiraSegMatches
  by_cases hc : '-' ∈ part
  · simp [List.contains, List.elem_eq_mem, hc]
  · have h1 : splitOnChar '-' part = [part] := splitOnChar_not_mem hc
    simp [List.contains, List.elem_eq_mem, hc, h1]

theorem append_period_ite (l : List Char) :
    (l ++ if l.getLast? = some '.' then ([] : List Char) else ['.']) =
      if l.getLast? = some '.' then l else l ++ ['.'] := by
  split <;> simp

/-- C9: `format_description` concatenates the non-empty clauses in order
cause then solution, each forced to end with a period, with a single space
between them exactly when both are non-empty, omitting whichever is empty;
and the claim's worked example holds. -/
theorem format_description_spec :
    (∀ cause solution : List Char,
      format_description cause solution =
        withFinalPeriod cause ++
        (if cause ≠ [] ∧ solution ≠ [] then [' '] else []) ++
        withFinalPeriod solution) ∧
    format_description "Root cause unclear".data "Patched config.".data =
      "Root cause unclear. Patched config.".data := by
  refine ⟨?_, by decide⟩
  intro c s
  unfold format_description withFinalPeriod
  rcases eq_or_ne c [] with rfl | hc
  · rcases eq_or_ne s [] with rfl | hs
    · simp
    · simp [hs, List.isEmpty_iff, append_period_ite]
  · rcases eq_or_ne s [] with rfl | hs
    · simp [hc, List.isEmpty_iff, append_period_ite]
    · by_cases hcl : c.getLast? = some '.' <;>
        simp [hc, hs, hcl, List.isEmpty_iff, List.append_assoc, List.append_eq_nil,
          append_period_ite]

/-- C4: `parse_date` maps `"05/Mar/24"` to 2024-03-05; the claim's three
rejection examples yield `none`; any input whose `/`-split is not exactly
three parts yields `none`; every successful parse is a numerically valid
calendar date; and every successful parse has a recognized month token and,
for a two-digit year field YY, the year `2000 + YY`. -/
theorem parse_date_spec :
    parse_date "05/Mar/24".data = some ⟨2024, 3, 5⟩ ∧
    parse_date "05/Mar/24/x".data = none ∧
    parse_date "05/Xyz/24".data = none ∧
    parse_date "32/Jan/24".data = none ∧
    (∀ s : List Char, (splitOnChar '/' s).length ≠ 3 → parse_date s = none) ∧
    (∀ (s : List Char) (d : Date), parse_date s = some d →
      1 ≤ d.month ∧ d.month ≤ 12 ∧ 1 ≤ d.day ∧ d.day ≤ daysInMonth d.year d.month) ∧
    (∀ (s : List Char) (d : Date), parse_date s = some d →
      ∃ p0 p1 p2, splitOnChar '/' s = [p0, p1, p2] ∧ (monthOf p1).isSome = true ∧
        ∃ y : Int, parseI32 p2 = some y ∧ (0 ≤ y → y < 100 → d.year = 2000 + y)) := by
  refine ⟨by decide, by decide, by decide, by decide, ?_, ?_, ?_⟩
  · intro s h
    unfold parse_date
    split
    next p0 p1 p2 heq => exact absurd (by simp [heq]) h
    next => rfl
  · intro s d h
    unfold parse_date at h
    split at h
    next p0 p1 p2 heq =>
      cases hu : parseU32 p0 with
      | none => simp [hu] at h
      | some day =>
        simp only [hu] at h
        cases hy : parseI32 p2 with
        | none => simp [hy] at h
        | some y =>
          simp only [hy] at h
          cases hm : monthOf p1 with
          | none => simp [hm] at h
          | some m =>
            simp only [hm] at h
            rw [from_ymd_opt] at h
            split at h
            next hcond =>
              injection h with h2
              subst h2
              exact ⟨hcond.1, hcond.2.1, hcond.2.2.1, hcond.2.2.2.1⟩
            next => simp at h
    next => simp at h
  · intro s d h
    unfold parse_date at h
    split at h
    next p0 p1 p2 heq =>
      cases hu : parseU32 p0 with
      | none => simp [hu] at h
      | some day =>
        simp only [hu] at h
        cases hy : parseI32 p2 with
        | none => simp [hy] at h
        | some y =>
          simp only [hy] at h
          cases hm : monthOf p1 with
          | none => simp [hm] at h
          | some m =>
            simp only [hm] at h
            rw [from_ymd_opt] at h
            split at h
            next hcond =>
              injection h with h2
              subst h2
              refine ⟨p0, p1, p2, heq, by simp [hm], y, hy, ?_⟩
              intro hy0 hy100
              show wrap32 (2000 + y) = 2000 + y
              unfold wrap32
              have h31 : (2 : Int) ^ 31 = 2147483648 := by norm_num
              have h32 : (2 : Int) ^ 32 = 4294967296 := by norm_num
              rw [h31, h32]
              omega
            next => simp at h
    next => simp at h

/-- C4 witness: the structural conjuncts applied at concrete inputs. -/
theorem parse_date_spec_w :
    parse_date "05 Mar 24".data = none ∧
    (1 ≤ (Date.mk 2024 3 5).month ∧ (Date.mk 2024 3 5).month ≤ 12 ∧
      1 ≤ (Date.mk 2024 3 5).day ∧
      (Date.mk 2024 3 5).day ≤ daysInMonth (Date.mk 2024 3 5).year (Date.mk 2024 3 5).month) ∧
    (∃ p0 p1 p2, splitOnChar '/' "05/Mar/24".data = [p0, p1, p2] ∧
      (monthOf p1).isSome = true ∧
      ∃ y : Int, parseI32 p2 = some y ∧
        (0 ≤ y → y < 100 → (Date.mk 2024 3 5).year = 2000 + y)) := by
  refine ⟨parse_date_spec.2.2.2.2.1 _ (by decide),
    parse_date_spec.2.2.2.2.2.1 "05/Mar/24".data ⟨2024, 3, 5⟩ (by decide),
    parse_date_spec.2.2.2.2.2.2 "05/Mar/24".data ⟨2024, 3, 5⟩ (by decide)⟩

theorem toNat_ofNat_valid {n : Nat} (h : n.isValidChar) : (Char.ofNat n).toNat = n := by
  unfold Char.ofNat
  rw [dif_pos h]
  rfl

theorem toLower_eq_plus {c : Char} (h : Char.toLower c = '+') : c = '+' := by
  unfold Char.toLower at h
  simp only [] at h
  by_cases hc : c.toNat ≥ 65 ∧ c.toNat ≤ 90
  · rw [if_pos hc] at h
    exfalso
    have h2 := congrArg Char.toNat h
    rw [toNat_ofNat_valid (by constructor; omega)] at h2
    have h3 : ('+').toNat = 43 := by decide
    omega
  · rw [if_neg hc] at h
    exact h

theorem lowerList_not_plus {l : List Char} (h : '+' ∉ l) : '+' ∉ lowerList l := by
  intro hm
  rcases List.mem_map.1 hm with ⟨c, hc, hlc⟩
  exact h (toLower_eq_plus hlc ▸ hc)

theorem lowerList_append_plus (a b : List Char) :
    lowerList (a ++ '+' :: b) = lowerList a ++ '+' :: lowerList b := by
  have h : Char.toLower '+' = '+' := by decide
  simp [lowerList, h]

/-- C6, counterexample: on `"2+min30"` the code removes the substring `min`
ANYWHERE in the minutes part (`"min30"` becomes `"30"`, giving 150), while
the claim's trailing-only stripping leaves `"min30"` unparseable, counting
as 0 and giving 120. -/
theorem parse_duration_plus_cex :
    splitOnChar '+' (lowerList "2+min30".data) = ["2".data, "min30".data] ∧
    parse_duration_to_minutes "2+min30".data = 150 ∧
    wrap32 (parseI32or 0 "2".data * 60 +
      parseI32or 0 (claimMinutesPart "min30".data)) = 120 := by
  refine ⟨by decide, by decide, by decide⟩

/-- C6 (amended): on an input containing exactly one `+`, the result is
hours×60 + minutes where invalid numeric parts count as 0 and the minutes
part is cleaned by deleting EVERY occurrence of `minutes` and then of `min`
anywhere in it (not only trailing) before trimming whitespace; the claim's
worked examples `"4+29"` → 269, `"4h29m"` → 269, `"45"` → 45 and
`"abc"` → 5 hold. -/
theorem parse_duration_spec :
    (∀ a b : List Char, '+' ∉ a → '+' ∉ b →
      parse_duration_to_minutes (a ++ '+' :: b) =
        wrap32 (parseI32or 0 (lowerList a) * 60 +
          parseI32or 0 (trimWs (removeAll 'm' "in".data
            (removeAll 'm' "inutes".data (lowerList b)))))) ∧
    parse_duration_to_minutes "4+29".data = 269 ∧
    parse_duration_to_minutes "4h29m".data = 269 ∧
    parse_duration_to_minutes "45".data = 45 ∧
    parse_duration_to_minutes "abc".data = 5 := by
  refine ⟨?_, by decide, by decide, by decide, by decide⟩
  intro a b ha hb
  have hla := lowerList_not_plus ha
  have hlb := lowerList_not_plus hb
  unfold parse_duration_to_minutes
  simp only [lowerList_append_plus]
  have hc : (lowerList a ++ '+' :: lowerList b).contains '+' = true := by
    simp [List.contains, List.elem_eq_mem]
  rw [if_pos hc, splitOnChar_append _ hla, splitOnChar_not_mem hlb]

/-- C6 witness: the amended `+`-rule applied at `a = "4"`, `b = "29"`. -/
theorem parse_duration_spec_w :
    parse_duration_to_minutes ("4".data ++ '+' :: "29".data) = 269 := by
  rw [parse_duration_spec.1 "4".data "29".data (by decide) (by decide)]
  decide

theorem pdm_rest_checked_eq (t : List Char) : pdm_rest_checked t = some (pdm_rest t) := by
  unfold pdm_rest_checked pdm_rest capturesHM capturesNum
  by_cases h : t.contains 'h' && t.contains 'm'
  · simp only [h, if_true]
    cases h1 : findHM t with
    | some p => cases p; simp
    | none => cases h2 : findNum t <;> simp
  · simp only [h, if_false]
    cases h2 : findNum t <;> simp

/-- C10: `parse_duration_to_minutes` is total and panic-free — with every
`unwrap` on a regex capture group modelled as a fallible step, the checked
variant never fails and agrees with the function on every input (the two
patterns have no look-around, so their compilation succeeds, and groups 1
and 2 are present whenever the enclosing pattern matches). -/
theorem parse_duration_total (s : List Char) :
    parse_duration_to_minutes_checked s = some (parse_duration_to_minutes s) := by
  unfold parse_duration_to_minutes_checked parse_duration_to_minutes
  by_cases h : (lowerList s).contains '+'
  · simp only [h, if_true]
    rcases h2 : splitOnChar '+' (lowerList s) with _ | ⟨x, _ | ⟨y, _ | ⟨z, t⟩⟩⟩ <;>
      simp [pdm_rest_checked_eq]
  · simp only [h, if_false]
    exact pdm_rest_checked_eq _

/-- C8: when the description yields no time range, the start time follows
the fixed policy — 14:00 on Saturday/Sunday, otherwise 10:30 for durations
0–30 minutes, 13:00 for 31–120, 09:00 for more than 120 — and the result is
(start, start + parsed duration), both rendered `HH:MM`. -/
theorem calculate_incident_times_spec (date : Int) (dur desc : List Char)
    (h : extract_time_from_description desc = (none, none)) :
    ((days_since_sunday date = 0 ∨ days_since_sunday date = 6) →
      calculate_incident_times date dur desc =
        ("14:00".data, fmtHM (840 + parse_duration_to_minutes dur))) ∧
    (¬(days_since_sunday date = 0 ∨ days_since_sunday date = 6) →
      ((0 ≤ parse_duration_to_minutes dur → parse_duration_to_minutes dur ≤ 30 →
        calculate_incident_times date dur desc =
          ("10:30".data, fmtHM (630 + parse_duration_to_minutes dur))) ∧
      (31 ≤ parse_duration_to_minutes dur → parse_duration_to_minutes dur ≤ 120 →
        calculate_incident_times date dur desc =
          ("13:00".data, fmtHM (780 + parse_duration_to_minutes dur))) ∧
      (120 < parse_duration_to_minutes dur →
        calculate_incident_times date dur desc =
          ("09:00".data, fmtHM (540 + parse_duration_to_minutes dur))))) := by
  have e1 : fmtHM (14 * 60) = "14:00".data := by decide
  have e2 : fmtHM (10 * 60 + 30) = "10:30".data := by decide
  have e3 : fmtHM (13 * 60) = "13:00".data := by decide
  have e4 : fmtHM (9 * 60) = "09:00".data := by decide
  unfold calculate_incident_times
  rw [h]
  dsimp only
  constructor
  · intro hw
    rw [if_pos (Or.symm hw), e1]
    norm_num
  · intro hnw
    have hnw' : ¬(days_since_sunday date = 6 ∨ days_since_sunday date = 0) :=
      fun hx => hnw (Or.symm hx)
    rw [if_neg hnw']
    refine ⟨?_, ?_, ?_⟩
    · intro h1 h2
      rw [if_pos ⟨h1, h2⟩, e2]
      norm_num
    · intro h1 h2
      rw [if_neg (by omega : ¬(0 ≤ parse_duration_to_minutes dur ∧
            parse_duration_to_minutes dur ≤ 30)),
        if_pos ⟨h1, h2⟩, e3]
      norm_num
    · intro h1
      rw [if_neg (by omega : ¬(0 ≤ parse_duration_to_minutes dur ∧
            parse_duration_to_minutes dur ≤ 30)),
        if_neg (by omega : ¬(31 ≤ parse_duration_to_minutes dur ∧
            parse_duration_to_minutes dur ≤ 120)), e4]
      norm_num

/-- C8 witness: the policy applied on Thursday 1970-01-01 (day number 0)
with duration text `"45"` and an empty description. -/
theorem calculate_incident_times_spec_w :
    calculate_incident_times 0 "45".data [] = ("13:00".data, "13:45".data) := by
  have h := ((calculate_incident_times_spec 0 "45".data [] (by decide)).2
    (by decide)).2.1 (by decide) (by decide)
  rw [h]
  decide

/-- C5 (evidence for the code bug): on the spec's §8 example the extractor
returns the EMPTY string — the two section regexes of main.rs:322/339 use
look-ahead, which the regex engine rejects, so section extraction never
runs, and the fallback keyword scan matches no line of that example.  The
fallback does fire on a line containing `caused by`, which is all the
function can ever return. -/
theorem extract_rca_example :
    extract_rca_and_preventative_measures
      ("RCA: Azure config push broke CDN.\n\nPreventative Measures: Vendor agreed to staged rollout.").data
      = [] ∧
    extract_rca_and_preventative_measures
      ("Outage was caused by a config push.\nMore text.").data =
      "Outage was caused by a config push.".data := by
  refine ⟨by decide, by decide⟩

theorem dateLe_trans {a b c : Date} (h1 : dateLe a b = true) (h2 : dateLe b c = true) :
    dateLe a c = true := by
  simp only [dateLe, decide_eq_true_eq] at h1 h2 ⊢
  omega

theorem dateLe_total (a b : Date) : (dateLe a b || dateLe b a) = true := by
  simp only [dateLe, Bool.or_eq_true, decide_eq_true_eq]
  omega

theorem optDateLe_trans {x y z : Option Date} (h1 : optDateLe x y = true)
    (h2 : optDateLe y z = true) : optDateLe x z = true := by
  cases x with
  | none => rfl
  | some a =>
    cases y with
    | none => exact absurd h1 (by simp [optDateLe])
    | some b =>
      cases z with
      | none => exact absurd h2 (by simp [optDateLe])
      | some c => exact dateLe_trans h1 h2

theorem optDateLe_total (x y : Option Date) : (optDateLe x y || optDateLe y x) = true := by
  cases x with
  | none => rfl
  | some a =>
    cases y with
    | none => rfl
    | some b => exact dateLe_total a b

/-- C7: after ingestion every retained record's date parses successfully and
lies within the inclusive week range; the retained records are sorted
ascending by parsed date; and a structurally invalid row (`none`) is skipped
without affecting the ingestion of the remaining rows. -/
theorem ingest_spec (ws we : Date) (rows xs ys : List (Option OutageRecord)) :
    (∀ rec ∈ ingest ws we rows, ∃ d, parse_date rec.date = some d ∧
      dateLe ws d = true ∧ dateLe d we = true) ∧
    (ingest ws we rows).Pairwise (fun a b => recordLe a b = true) ∧
    ingest ws we (xs ++ none :: ys) = ingest ws we (xs ++ ys) := by
  refine ⟨?_, ?_, ?_⟩
  · intro rec hmem
    rw [ingest, List.mem_mergeSort] at hmem
    rcases List.mem_filterMap.1 hmem with ⟨r, hr, hbind⟩
    cases r with
    | none => simp at hbind
    | some rec' =>
      simp only [Option.some_bind] at hbind
      cases hpd : parse_date rec'.date with
      | none => simp [hpd] at hbind
      | some d =>
        simp only [hpd] at hbind
        by_cases hle : (dateLe ws d && dateLe d we) = true
        · rw [if_pos hle] at hbind
          injection hbind with hbe
          subst hbe
          rcases Bool.and_eq_true_iff.1 hle with ⟨hle1, hle2⟩
          exact ⟨d, hpd, hle1, hle2⟩
        · rw [if_neg hle] at hbind
          simp at hbind
  · rw [ingest]
    exact @List.sorted_mergeSort OutageRecord recordLe
      (fun a b c h1 h2 => optDateLe_trans h1 h2)
      (fun a b => optDateLe_total _ _) _
  · rw [ingest, ingest]
    simp [List.filterMap_append]

/-- C7 witness: the range-membership conjunct and the skipped-row conjunct
at a concrete week range and a concrete row list. -/
theorem ingest_spec_w :
    (∃ d, parse_date sampleRecord.date = some d ∧
      dateLe ⟨2024, 3, 3⟩ d = true ∧ dateLe d ⟨2024, 3, 9⟩ = true) ∧
    ingest ⟨2024, 3, 3⟩ ⟨2024, 3, 9⟩ ([some sampleRecord] ++ none :: []) =
      ingest ⟨2024, 3, 3⟩ ⟨2024, 3, 9⟩ ([some sampleRecord] ++ []) := by
  refine ⟨(ingest_spec ⟨2024, 3, 3⟩ ⟨2024, 3, 9⟩ [some sampleRecord] [] []).1
      sampleRecord ?_,
    (ingest_spec ⟨2024, 3, 3⟩ ⟨2024, 3, 9⟩ [] [some sampleRecord] []).2.2⟩
  rw [ingest, List.mem_mergeSort]
  decide

theorem isWhitespace_eq_false_of_isDigit {c : Char} (h : c.isDigit = true) :
    c.isWhitespace = false := by
  cases hw : c.isWhitespace with
  | false => rfl
  | true =>
    exfalso
    have h4 : ((c = ' ' ∨ c = '\t') ∨ c = '\r') ∨ c = '\n' := by
      simpa [Char.isWhitespace] using hw
    rcases h4 with ((rfl | rfl) | rfl) | rfl <;> exact absurd h (by decide)

theorem sep_not_ws {s : Char} (h : s ∈ sepChars) : s.isWhitespace = false := by
  have h4 : s = '-' ∨ s = 'â' ∨ s = '€' ∨ s = '“' := by simpa [sepChars] using h
  rcases h4 with rfl | rfl | rfl | rfl <;> decide

theorem sep_contains {s : Char} (h : s ∈ sepChars) : sepChars.contains s = true := by
  simp [List.contains, List.elem_eq_mem, h]

theorem clockShape_head_digit {t : List Char} (h : ClockShape t) :
    ∃ d rest, t = d :: rest ∧ d.isDigit = true := by
  rcases h with ⟨a, b, c, rfl, ha, _, _⟩ | ⟨a, a2, b, c, rfl, ha, _, _, _⟩
  · exact ⟨a, _, rfl, ha⟩
  · exact ⟨a, _, rfl, ha⟩

theorem clockShape_colon {t : List Char} (h : ClockShape t) : ':' ∈ t := by
  rcases h with ⟨a, b, c, rfl, _, _, _⟩ | ⟨a, a2, b, c, rfl, _, _, _, _⟩ <;> simp

theorem matchClock_of_clockShape {t : List Char} (h : ClockShape t) (r : List Char) :
    matchClock (t ++ r) = some (t, r) := by
  rcases h with ⟨a, b, c, rfl, ha, hb, hc⟩ | ⟨a, a2, b, c, rfl, ha, ha2, hb, hc⟩
  · cases r with
    | nil =>
      simp only [List.cons_append, List.nil_append, List.append_nil, matchClock,
        matchClock1, ha, if_true]
      simp [hb, hc]
    | cons r0 r' =>
      simp only [List.cons_append, List.nil_append, matchClock, matchClock1, ha, if_true]
      have hcolon : (':').isDigit = false := by decide
      simp [hcolon, hb, hc]
  · simp only [List.cons_append, List.nil_append, matchClock, ha, if_true]
    simp [ha2, hb, hc]

theorem skipWs_ws_append {w : List Char} (hw : ∀ c ∈ w, c.isWhitespace = true)
    (r : List Char) : skipWs (w ++ r) = skipWs r := by
  induction w with
  | nil => rfl
  | cons c w' ih =>
    rw [List.cons_append]
    have hc : c.isWhitespace = true := hw c (by simp)
    simp only [skipWs, hc, if_true]
    exact ih (fun x hx => hw x (by simp [hx]))

theorem skipWs_not_ws {c : Char} (h : c.isWhitespace = false) (r : List Char) :
    skipWs (c :: r) = c :: r := by
  simp [skipWs, h]

theorem skipWs_suffix (l : List Char) : ∃ u, l = u ++ skipWs l := by
  induction l with
  | nil => exact ⟨[], rfl⟩
  | cons c r ih =>
    cases hc : c.isWhitespace with
    | true =>
      rcases ih with ⟨u, hu⟩
      refine ⟨c :: u, ?_⟩
      simp only [skipWs, hc, if_true, List.cons_append]
      rw [← hu]
    | false =>
      refine ⟨[], ?_⟩
      simp only [skipWs, hc, List.nil_append]
      rfl

theorem matchClock1_sound {d1 : Char} {rest t r : List Char}
    (hd : d1.isDigit = true) (h : matchClock1 d1 rest = some (t, r)) :
    ClockShape t ∧ d1 :: rest = t ++ r := by
  unfold matchClock1 at h
  split at h
  next x m1 m2 rest2 =>
    split at h
    next hcond =>
      injection h with h1
      injection h1 with ht hr
      subst ht
      subst hr
      simp only [Bool.and_eq_true, decide_eq_true_eq] at hcond
      obtain ⟨⟨hx, hm1⟩, hm2⟩ := hcond
      subst hx
      exact ⟨Or.inl ⟨d1, m1, m2, rfl, hd, hm1, hm2⟩, rfl⟩
    next => exact absurd h (by simp)
  next => exact absurd h (by simp)

theorem matchClock_sound {l t r : List Char} (h : matchClock l = some (t, r)) :
    ClockShape t ∧ l = t ++ r := by
  cases l with
  | nil => exact absurd h (by simp [matchClock])
  | cons d1 rest =>
    simp only [matchClock] at h
    by_cases hd : d1.isDigit = true
    · rw [if_pos hd] at h
      split at h
      next d2 y m1 m2 rest3 =>
        split at h
        next hcond =>
          injection h with h1
          injection h1 with ht hr
          subst ht
          subst hr
          simp only [Bool.and_eq_true, decide_eq_true_eq] at hcond
          obtain ⟨⟨⟨hd2, hy⟩, hm1⟩, hm2⟩ := hcond
          subst hy
          exact ⟨Or.inr ⟨d1, d2, m1, m2, rfl, hd, hd2, hm1, hm2⟩, rfl⟩
        next => exact matchClock1_sound hd h
      next => exact matchClock1_sound hd h
    · rw [if_neg hd] at h
      exact absurd h (by simp)

theorem matchRangeAt_decomp {t1 w1 w2 t2 : List Char} {s : Char} (post : List Char)
    (h1 : ClockShape t1) (hw1 : ∀ c ∈ w1, c.isWhitespace = true) (hs : s ∈ sepChars)
    (hw2 : ∀ c ∈ w2, c.isWhitespace = true) (h2 : ClockShape t2) :
    matchRangeAt (t1 ++ (w1 ++ s :: (w2 ++ (t2 ++ post)))) = some (t1, t2) := by
  obtain ⟨d, trest, ht2, hd⟩ := clockShape_head_digit h2
  have hskip2 : skipWs (w2 ++ (t2 ++ post)) = t2 ++ post := by
    rw [skipWs_ws_append hw2, ht2, List.cons_append,
      skipWs_not_ws (isWhitespace_eq_false_of_isDigit hd), ← List.cons_append, ← ht2]
  unfold matchRangeAt
  rw [matchClock_of_clockShape h1]
  simp only
  rw [skipWs_ws_append hw1, skipWs_not_ws (sep_not_ws hs)]
  simp only
  rw [if_pos (sep_contains hs), hskip2, matchClock_of_clockShape h2]

theorem matchRangeAt_nil : matchRangeAt [] = none := by
  simp [matchRangeAt, matchClock]

theorem findTimeRange_of_matchRangeAt {suffix : List Char} {p : List Char × List Char}
    (h : matchRangeAt suffix = some p) (pre : List Char) :
    ∃ q, findTimeRange (pre ++ suffix) = some q := by
  induction pre with
  | nil =>
    cases suffix with
    | nil => rw [matchRangeAt_nil] at h; exact absurd h (by simp)
    | cons c rest => exact ⟨p, by simp only [List.nil_append, findTimeRange, h]⟩
  | cons c pre' ih =>
    rcases ih with ⟨q, hq⟩
    rw [List.cons_append]
    cases hm : matchRangeAt (c :: (pre' ++ suffix)) with
    | some p2 => exact ⟨p2, by simp only [findTimeRange, hm]⟩
    | none =>
      refine ⟨q, ?_⟩
      simp only [findTimeRange, hm]
      exact hq

theorem matchRangeAt_sound {l a b : List Char} (h : matchRangeAt l = some (a, b)) :
    ClockShape a ∧ ClockShape b ∧ (∃ v, l = a ++ v) ∧ (∃ u v, l = u ++ (b ++ v)) := by
  unfold matchRangeAt at h
  cases h1 : matchClock l with
  | none => simp [h1] at h
  | some p =>
    obtain ⟨t1, rest1⟩ := p
    simp only [h1] at h
    obtain ⟨hc1, hl⟩ := matchClock_sound h1
    cases h2 : skipWs rest1 with
    | nil => simp [h2] at h
    | cons s rest3 =>
      simp only [h2] at h
      by_cases hsc : sepChars.contains s = true
      · rw [if_pos hsc] at h
        cases h3 : matchClock (skipWs rest3) with
        | none => simp [h3] at h
        | some p2 =>
          obtain ⟨t2, r2⟩ := p2
          simp only [h3] at h
          injection h with h4
          injection h4 with ha hb
          subst ha
          subst hb
          obtain ⟨hc2, hl2⟩ := matchClock_sound h3
          refine ⟨hc1, hc2, ⟨rest1, hl⟩, ?_⟩
          obtain ⟨u1, hu1⟩ := skipWs_suffix rest1
          obtain ⟨u2, hu2⟩ := skipWs_suffix rest3
          refine ⟨t1 ++ u1 ++ s :: u2, r2, ?_⟩
          rw [hl, hu1, h2, hu2, hl2]
          simp [List.append_assoc]
      · rw [if_neg hsc] at h
        simp at h

theorem findTimeRange_sound {l a b : List Char} (h : findTimeRange l = some (a, b)) :
    ClockShape a ∧ ClockShape b ∧
      (∃ u v, l = u ++ (a ++ v)) ∧ (∃ u v, l = u ++ (b ++ v)) := by
  induction l with
  | nil => simp [findTimeRange] at h
  | cons c rest ih =>
    simp only [findTimeRange] at h
    cases hm : matchRangeAt (c :: rest) with
    | some p =>
      obtain ⟨a2, b2⟩ := p
      simp only [hm] at h
      injection h with h1
      injection h1 with ha hb
      subst ha
      subst hb
      obtain ⟨hc1, hc2, ⟨v, hv⟩, ⟨u2, v2, huv⟩⟩ := matchRangeAt_sound hm
      exact ⟨hc1, hc2, ⟨[], v, by simpa using hv⟩, ⟨u2, v2, huv⟩⟩
    | none =>
      simp only [hm] at h
      obtain ⟨hc1, hc2, ⟨u, v, huv⟩, ⟨u2, v2, huv2⟩⟩ := ih h
      exact ⟨hc1, hc2, ⟨c :: u, v, by rw [huv]; rfl⟩, ⟨c :: u2, v2, by rw [huv2]; rfl⟩⟩

/-- C3, counterexample: the description `"18:40 â€“ 18:43"` is a time,
whitespace, the en-dash-like mojibake character sequence `â€“`, whitespace
and a second time, with no ASCII hyphen anywhere — the claim says both
times are returned verbatim, but the function returns `(none, none)`: its
quick check demands an ASCII `-`, and the regex class matches only a single
character, never the three-character sequence. -/
theorem extract_time_mojibake_cex :
    "18:40 â€“ 18:43".data =
      "18:40".data ++ [' '] ++ ('â' :: '€' :: '“' :: []) ++ [' '] ++ "18:43".data ∧
    ClockShape "18:40".data ∧ ClockShape "18:43".data ∧
    ('-' ∈ "18:40 â€“ 18:43".data → False) ∧
    extract_time_from_description "18:40 â€“ 18:43".data = (none, none) := by
  refine ⟨by decide,
    Or.inr ⟨'1', '8', '4', '0', by decide, by decide, by decide, by decide⟩,
    Or.inr ⟨'1', '8', '4', '3', by decide, by decide, by decide, by decide⟩,
    by decide, by decide⟩

/-- C3 (amended): for every description that decomposes as
`pre ++ time ++ ws ++ sep ++ ws ++ time ++ post` where `sep` is ONE
character of the literal class `{'-', 'â', '€', '“'}` (the mojibake bytes of
an en dash; neither the real en dash nor the full sequence `â€“` matches),
and that ALSO contains an ASCII `-` somewhere, the function returns two
times, both of `H:MM`/`HH:MM` shape and both verbatim substrings of the
description (the leftmost match's capture groups). -/
theorem extract_time_spec (pre t1 w1 w2 t2 post : List Char) (s : Char)
    (h1 : ClockShape t1) (hw1 : ∀ c ∈ w1, c.isWhitespace = true) (hs : s ∈ sepChars)
    (hw2 : ∀ c ∈ w2, c.isWhitespace = true) (h2 : ClockShape t2)
    (hdash : '-' ∈ pre ++ (t1 ++ (w1 ++ s :: (w2 ++ (t2 ++ post))))) :
    ∃ a b,
      extract_time_from_description (pre ++ (t1 ++ (w1 ++ s :: (w2 ++ (t2 ++ post))))) =
        (some a, some b) ∧
      ClockShape a ∧ ClockShape b ∧
      (∃ u v, pre ++ (t1 ++ (w1 ++ s :: (w2 ++ (t2 ++ post)))) = u ++ (a ++ v)) ∧
      (∃ u v, pre ++ (t1 ++ (w1 ++ s :: (w2 ++ (t2 ++ post)))) = u ++ (b ++ v)) := by
  have hm := matchRangeAt_decomp post h1 hw1 hs hw2 h2
  obtain ⟨q, hq⟩ := findTimeRange_of_matchRangeAt hm pre
  obtain ⟨a, b⟩ := q
  obtain ⟨hc1, hc2, hinf1, hinf2⟩ := findTimeRange_sound hq
  refine ⟨a, b, ?_, hc1, hc2, hinf1, hinf2⟩
  unfold extract_time_from_description
  have hcd : (pre ++ (t1 ++ (w1 ++ s :: (w2 ++ (t2 ++ post))))).contains '-' = true := by
    simp [List.contains, List.elem_eq_mem]
    simpa using hdash
  have hcc : (pre ++ (t1 ++ (w1 ++ s :: (w2 ++ (t2 ++ post))))).contains ':' = true := by
    have hcol : ':' ∈ t1 := clockShape_colon h1
    simp [List.contains, List.elem_eq_mem]
    simp [hcol]
  rw [if_pos (by rw [hcd, hcc]; rfl)]
  rw [hq]

/-- C3 witness: the amended theorem instantiated on
`"x- 18:40 â 18:43"` — separator `â` alone, with the required ASCII hyphen
appearing elsewhere in the text. -/
theorem extract_time_spec_w :
    ∃ a b,
      extract_time_from_description
          ("x- ".data ++ ("18:40".data ++ ([' '] ++ 'â' :: ([' '] ++ ("18:43".data ++ []))))) =
        (some a, some b) ∧
      ClockShape a ∧ ClockShape b ∧
      (∃ u v, "x- ".data ++ ("18:40".data ++ ([' '] ++ 'â' :: ([' '] ++ ("18:43".data ++ [])))) =
        u ++ (a ++ v)) ∧
      (∃ u v, "x- ".data ++ ("18:40".data ++ ([' '] ++ 'â' :: ([' '] ++ ("18:43".data ++ [])))) =
        u ++ (b ++ v)) :=
  extract_time_spec "x- ".data "18:40".data [' '] [' '] "18:43".data [] 'â'
    (Or.inr ⟨'1', '8', '4', '0', by decide, by decide, by decide, by decide⟩)
    (by decide) (by decide) (by decide)
    (Or.inr ⟨'1', '8', '4', '3', by decide, by decide, by decide, by decide⟩)
    (by decide)
